import Mathlib

/-!
Shallow embedding of the RepoRefinery repository cleanup utility
(`repo_cleaner.py`, `utils/github_api.py`, `utils/file_utils.py`).

Conventions of the embedding:
* File contents and subprocess output lines are `List Char`.
* Commit dates (`datetime` values) are `Int`: only their linear order matters.
* HTTP traffic is modelled as a trace: each function is translated to the
  list of API requests it issues, given a "world" that fixes the responses
  (branch listing, per-URL commit-fetch results).  A non-2xx response is
  `none` / an empty listing, exactly as the Python helpers map failures
  (`api_request` returns `None` on `raise_for_status`, `get_branches`
  returns `[]`).
* MD5 is an opaque parameter `hashFn`: the scanner only compares digests
  for equality, never inspects them.
-/

abbrev Chars := List Char

/-- Whitespace characters recognised by Python `str.strip()` / `str.split()`
(ASCII subset). -/
def pyWS (c : Char) : Bool :=
  c == ' ' || c == '\t' || c == '\n' || c == '\r' || c == '\x0b' || c == '\x0c'

/-- Python `str.strip()`: drop leading and trailing whitespace. -/
def pyStrip (s : Chars) : Chars :=
  ((s.dropWhile pyWS).reverse.dropWhile pyWS).reverse

/-- Split a string at every newline, like iterating a file's lines (each line
stripped afterwards) or `str.splitlines` on text that models one line per
element. -/
def splitNL : Chars → List Chars
  | [] => [[]]
  | c :: cs =>
    if c = '\n' then [] :: splitNL cs
    else
      match splitNL cs with
      | [] => [[c]]
      | l :: ls => (c :: l) :: ls

/-- Python `line.split(maxsplit=1)`: drop leading whitespace, take the first
whitespace-free token, drop the following whitespace run; the remainder (if
nonempty) is the second element. -/
def pySplit1 (s : Chars) : List Chars :=
  let s1 := s.dropWhile pyWS
  match s1.takeWhile (fun c => !pyWS c), (s1.dropWhile (fun c => !pyWS c)).dropWhile pyWS with
  | [], _ => []
  | tok, [] => [tok]
  | tok, rest => [tok, rest]

/-- One HTTP request issued against the hosting API. -/
inductive Request where
  | getBranches : Request
  | getTags : Request
  | getCommit (url : String) : Request
  | deleteBranch (name : String) : Request
  | deleteTag (name : String) : Request
  | getContents (path : String) : Request
  | putContents (path : String) (content : Chars) : Request
  | patchRepo : Request
  deriving DecidableEq

/-- A branch record as returned by the branch-listing endpoint: the `name`
field and the nested commit `url` field, each read with `dict.get`, so
either may be absent (`utils/github_api.py`, `get_old_branches`). -/
structure Branch where
  name : String
  commitUrl : Option String
  deriving DecidableEq

namespace GH

/-- Requests issued for one branch by `utils/github_api.get_old_branches`:
one commit-info request when the branch carries a commit URL
(`fetch_commit_date_from_url` calls `api_request` exactly once), followed by
a branch-delete request exactly when the fetched date exists and is strictly
before the cutoff (`if commit_date and commit_date < cutoff_date`).
`fetch u = none` models a failed (non-2xx) commit-info request. -/
def branchRequests (fetch : String → Option Int) (cutoff : Int) (b : Branch) :
    List Request :=
  match b.commitUrl with
  | none => []
  | some u =>
    Request.getCommit u ::
      match fetch u with
      | some d => if d < cutoff then [Request.deleteBranch b.name] else []
      | none => []

/-- Full request trace of `utils/github_api.get_old_branches`: the branch
listing request, then the per-branch requests in listing order.  `branches`
is the listing response (a failed listing yields `[]` from `get_branches`). -/
def get_old_branches (fetch : String → Option Int) (cutoff : Int)
    (branches : List Branch) : List Request :=
  Request.getBranches :: branches.flatMap (branchRequests fetch cutoff)

end GH

/-- A branch record as consumed by `repo_cleaner.get_old_branches`, which
indexes the `name` and nested commit `url` fields unconditionally. -/
structure RCBranch where
  name : String
  commitUrl : String
  deriving DecidableEq

/-- The response environment for one run of `repo_cleaner.main`:
the branch listing (`none` models a non-200 response), the per-URL
commit-info responses, the cutoff date, the repository's tags (name and
commit date — present in the world, though the program never requests
them), and whether `list_large_files` completes without raising. -/
structure RCWorld where
  branches : Option (List RCBranch)
  commitDate : String → Option Int
  cutoff : Int
  tags : List (String × Int)
  llfOk : Bool

namespace RC

/-- Request trace of `repo_cleaner.get_old_branches`: GET the listing; on a
200 response, for each branch GET its commit URL and, when that succeeds and
the date is strictly before the cutoff, DELETE the branch. -/
def get_old_branches (w : RCWorld) : List Request :=
  Request.getBranches ::
    match w.branches with
    | none => []
    | some bs =>
      bs.flatMap fun b =>
        Request.getCommit b.commitUrl ::
          match w.commitDate b.commitUrl with
          | some d => if d < w.cutoff then [Request.deleteBranch b.name] else []
          | none => []

/-- The fixed boilerplate `gitignore_content` string of
`repo_cleaner.update_gitignore`. -/
def gitignoreContent : Chars :=
  ("\n    # Ignore Python bytecode\n    __pycache__/\n    *.py[cod]\n\n    # Ignore OS files\n    .DS_Store\n    Thumbs.db\n\n    # Ignore IDE configs\n    .idea/\n    .vscode/\n    *.swp\n    ").data

/-- Resulting remote `.gitignore` content after `repo_cleaner.update_gitignore`:
both the exists branch (PUT with sha) and the create branch (PUT without sha)
upload the base64 encoding of the fixed `gitignore_content`, so the new
content is that constant whatever the prior state was. -/
def update_gitignore (_prior : Option Chars) : Chars :=
  gitignoreContent

/-- Request trace of `repo_cleaner.update_gitignore`: one GET of the contents
path, then one PUT of the fixed content (with or without a sha field). -/
def update_gitignore_requests (_w : RCWorld) : List Request :=
  [Request.getContents ".gitignore", Request.putContents ".gitignore" gitignoreContent]

/-- `repo_cleaner.list_large_files` line loop: `line.split(maxsplit=1)` is
unpacked into exactly two names, so a line without a filename raises an
uncaught `ValueError` (only `subprocess.CalledProcessError` is caught).
`sizeOf` gives the byte size `git cat-file -s` reports for an object hash;
the strict test `size_in_mb > file_size_threshold` is `size > t * 1048576`
over exact arithmetic. -/
def list_large_files (sizeOf : Chars → Nat) (threshold : Nat) :
    List Chars → Except String (List (Chars × Nat))
  | [] => .ok []
  | line :: rest =>
    match pySplit1 line with
    | [h, fn] =>
      (list_large_files sizeOf threshold rest).map fun tail =>
        if threshold * 1048576 < sizeOf h then (fn, sizeOf h) :: tail else tail
    | _ => .error "ValueError"

/-- Full API request trace of `repo_cleaner.main`: old-branch cleanup, then
`list_large_files` (no API requests; if it raises, the run aborts before
`update_gitignore`), then the `.gitignore` update. -/
def mainRequests (w : RCWorld) : List Request :=
  RC.get_old_branches w ++ if w.llfOk then RC.update_gitignore_requests w else []

end RC

namespace FU

/-- `utils/file_utils.list_large_files` line loop: lines whose
`split(maxsplit=1)` yields fewer than two parts are skipped (`continue`);
an object is kept exactly when its size strictly exceeds the threshold. -/
def list_large_files (sizeOf : Chars → Nat) (threshold : Nat) :
    List Chars → List (Chars × Nat)
  | [] => []
  | line :: rest =>
    match pySplit1 line with
    | [h, fn] =>
      if threshold * 1048576 < sizeOf h then
        (fn, sizeOf h) :: list_large_files sizeOf threshold rest
      else list_large_files sizeOf threshold rest
    | _ => list_large_files sizeOf threshold rest

end FU

/-- A file met by the `os.walk` traversal: its path and, when readable, its
content (`none` models a file whose `open` raises `IOError`). -/
structure FSFile (α : Type) where
  path : String
  content : Option α
  deriving DecidableEq

/-- `utils/file_utils.hash_file`: the MD5 digest of the content, or `None`
when the file cannot be opened (the `except IOError` inside `hash_file`
catches the error and returns `None`). -/
def hash_file (hashFn : α → β) (f : FSFile α) : Option β :=
  f.content.map hashFn

/-- State of the `remove_duplicate_files` loop: the `file_hashes` dict
(association list keyed by the possibly-`None` digest), the returned
`duplicates` list, the set of files actually removed, and `error_files`. -/
structure ScanState (β : Type) where
  fileHashes : List (Option β × String)
  duplicates : List String
  deleted : List String
  errorFiles : List String
  deriving DecidableEq

/-- Lookup in the `file_hashes` dict. -/
def findHash [DecidableEq β] (h : Option β) :
    List (Option β × String) → Option String
  | [] => none
  | (k, p) :: rest => if k = h then some p else findHash h rest

/-- One iteration of the `remove_duplicate_files` loop body.  `hash_file`
never raises (it returns `None` on `IOError`), so the `except IOError`
branch of the loop — the only writer of `error_files` — is unreachable and
the body always runs the dict test.  A `None` digest is an ordinary dict
key.  Deletion (`os.remove`) is modelled as succeeding. -/
def dupStep [DecidableEq β] (hashFn : α → β) (del : Bool)
    (st : ScanState β) (f : FSFile α) : ScanState β :=
  let h := hash_file hashFn f
  match findHash h st.fileHashes with
  | some _ =>
    { st with
      duplicates := st.duplicates ++ [f.path]
      deleted := if del then st.deleted ++ [f.path] else st.deleted }
  | none => { st with fileHashes := (h, f.path) :: st.fileHashes }

/-- `utils/file_utils.remove_duplicate_files` over the walk order `files`. -/
def remove_duplicate_files [DecidableEq β] (hashFn : α → β) (del : Bool)
    (files : List (FSFile α)) : ScanState β :=
  files.foldl (dupStep hashFn del) ⟨[], [], [], []⟩

/-- The `common_patterns` list of `utils/file_utils.optimize_gitignore`. -/
def commonPatterns : List Chars :=
  ["*.DS_Store", "Thumbs.db", ".vscode/", ".idea/", "*.iml", "*.suo",
   "*.user", "*.sln.docstates", "*.pyc", "*.pyo", "__pycache__/", "*.pyd",
   "*.pdb", "*.egg-info/", "node_modules/", "npm-debug.log*",
   "yarn-debug.log*", "yarn-error.log*", "*.log", "*.tmp", "*.bak", "*.swp",
   "*.swo"].map String.data

/-- The comment line written before appended patterns. -/
def optHeader : Chars :=
  '\n' :: ("# Optimized entries added by optimize_gitignore".data ++ ['\n'])

/-- `existing_patterns`: the set of stripped nonempty lines of the ignore
file (a missing file reads as the empty content `[]`, which yields no
patterns, matching the `else: existing_patterns = set()` branch). -/
def existingPatterns (content : Chars) : List Chars :=
  ((splitNL content).map pyStrip).filter (fun l => l ≠ [])

/-- The `new_patterns` of `optimize_gitignore`: common patterns not already
present among the file's stripped lines. -/
def newPatterns (content : Chars) : List Chars :=
  commonPatterns.filter fun p => decide (p ∉ existingPatterns content)

/-- `utils/file_utils.optimize_gitignore`: when some patterns are missing,
append (mode `"a"`) the header line and each missing pattern followed by a
newline; otherwise leave the file untouched. -/
def optimize_gitignore (content : Chars) : Chars :=
  let newPats := newPatterns content
  if newPats = [] then content
  else content ++ optHeader ++ (newPats.map fun p => p ++ ['\n']).flatten

/-! ### Branch cleanup (`utils/github_api.get_old_branches`) -/

theorem delete_mem_branchRequests (fetch : String → Option Int) (cutoff : Int)
    (b : Branch) (n : String) :
    Request.deleteBranch n ∈ GH.branchRequests fetch cutoff b ↔
      b.name = n ∧ ∃ u d, b.commitUrl = some u ∧ fetch u = some d ∧
        d < cutoff := by
  unfold GH.branchRequests
  cases hcu : b.commitUrl with
  | none => simp
  | some u =>
    cases hf : fetch u with
    | none => simp [hf]
    | some d =>
      by_cases hd : d < cutoff
      · simp [hf, hd, eq_comm]
      · simp [hf, hd]

theorem delete_mem_get_old_branches (fetch : String → Option Int)
    (cutoff : Int) (branches : List Branch) (n : String) :
    Request.deleteBranch n ∈ GH.get_old_branches fetch cutoff branches ↔
      ∃ b ∈ branches, b.name = n ∧ ∃ u d, b.commitUrl = some u ∧
        fetch u = some d ∧ d < cutoff := by
  unfold GH.get_old_branches
  simp [List.mem_flatMap, delete_mem_branchRequests]

/-- C1: for every branch returned by the branch listing whose commit-info
fetch yields a date, `get_old_branches` issues a delete request for the
branch exactly when that last commit date strictly precedes the cutoff; a
branch whose date is at or after the cutoff is retained.  (Both
`utils/github_api.get_old_branches` and `repo_cleaner.get_old_branches` use
the same strict comparison `commit_date < cutoff_date`.) -/
theorem get_old_branches_delete_iff_stale (fetch : String → Option Int)
    (cutoff : Int) (branches : List Branch)
    (hnd : (branches.map Branch.name).Nodup)
    (b : Branch) (hb : b ∈ branches) (u : String) (hu : b.commitUrl = some u)
    (d : Int) (hd : fetch u = some d) :
    Request.deleteBranch b.name ∈ GH.get_old_branches fetch cutoff branches ↔
      d < cutoff := by
  rw [delete_mem_get_old_branches]
  constructor
  · rintro ⟨c, hc, hname, u1, d1, hu1, hd1, hlt⟩
    have hcb : c = b := List.inj_on_of_nodup_map hnd hc hb hname
    subst hcb
    rw [hu] at hu1
    injection hu1 with hueq
    subst hueq
    rw [hd] at hd1
    injection hd1 with hdeq
    subst hdeq
    exact hlt
  · intro hlt
    exact ⟨b, hb, rfl, u, d, hu, hd, hlt⟩

/-- Spot-check of `get_old_branches_delete_iff_stale` at a concrete listing. -/
theorem get_old_branches_delete_iff_stale_witness :
    Request.deleteBranch "old" ∈
        GH.get_old_branches (fun _ => some 0) 10 [⟨"old", some "u1"⟩] ↔
      (0 : Int) < 10 :=
  get_old_branches_delete_iff_stale (fun _ => some 0) 10 [⟨"old", some "u1"⟩]
    (by decide) ⟨"old", some "u1"⟩ (by simp) "u1" rfl 0 rfl

theorem branchRequests_fetch_none (fetch : String → Option Int) (cutoff : Int)
    (b : Branch) (u : String) (hu : b.commitUrl = some u)
    (hf : fetch u = none) :
    GH.branchRequests fetch cutoff b = [Request.getCommit u] := by
  simp [GH.branchRequests, hu, hf]

theorem count_getCommit_branchRequests (fetch : String → Option Int)
    (cutoff : Int) (u : String) (b : Branch) :
    (GH.branchRequests fetch cutoff b).count (Request.getCommit u) =
      if b.commitUrl = some u then 1 else 0 := by
  unfold GH.branchRequests
  cases hcu : b.commitUrl with
  | none => simp
  | some u1 =>
    rcases hf : fetch u1 with _ | d
    · by_cases h : u1 = u
      · subst h; simp [List.count_cons, hf]
      · simp [List.count_cons, hf, h, Option.some.injEq]
    · by_cases h : u1 = u
      · subst h
        by_cases hd : d < cutoff <;> simp [List.count_cons, hf, hd]
      · by_cases hd : d < cutoff <;>
          simp [List.count_cons, hf, h, hd, Option.some.injEq]

theorem count_getCommit_flatMap (fetch : String → Option Int) (cutoff : Int)
    (u : String) (l : List Branch) :
    (l.flatMap (GH.branchRequests fetch cutoff)).count (Request.getCommit u) =
      l.countP (fun c => c.commitUrl == some u) := by
  induction l with
  | nil => simp
  | cons b l ih =>
    rw [List.flatMap_cons, List.count_append, ih,
      count_getCommit_branchRequests, List.countP_cons]
    by_cases h : b.commitUrl = some u
    · simp [h]; omega
    · simp [h]

/-- C8: a non-2xx commit-information response for a branch makes
`get_old_branches` skip it: the trace around the failing branch is exactly
the single commit-info request followed by the unchanged processing of the
remaining branches, no delete request is issued for the branch, and the
commit endpoint of that branch is queried exactly once (no retries). -/
theorem commit_fetch_failure_skips_branch (fetch : String → Option Int)
    (cutoff : Int) (pre post : List Branch) (b : Branch) (u : String)
    (hu : b.commitUrl = some u) (hf : fetch u = none)
    (hnd : ((pre ++ b :: post).map Branch.name).Nodup)
    (hone : (pre ++ b :: post).countP (fun c => c.commitUrl == some u) = 1) :
    GH.get_old_branches fetch cutoff (pre ++ b :: post) =
        Request.getBranches ::
          (pre.flatMap (GH.branchRequests fetch cutoff) ++
            Request.getCommit u ::
              post.flatMap (GH.branchRequests fetch cutoff))
      ∧ Request.deleteBranch b.name ∉
          GH.get_old_branches fetch cutoff (pre ++ b :: post)
      ∧ (GH.get_old_branches fetch cutoff (pre ++ b :: post)).count
          (Request.getCommit u) = 1 := by
  refine ⟨?_, ?_, ?_⟩
  · unfold GH.get_old_branches
    rw [List.flatMap_append, List.flatMap_cons,
      branchRequests_fetch_none fetch cutoff b u hu hf]
    simp
  · rw [delete_mem_get_old_branches]
    rintro ⟨c, hc, hname, u1, d1, hu1, hd1, _⟩
    have hbmem : b ∈ pre ++ b :: post := by simp
    have hcb : c = b := List.inj_on_of_nodup_map hnd hc hbmem hname
    subst hcb
    rw [hu] at hu1
    injection hu1 with hueq
    subst hueq
    rw [hf] at hd1
    exact Option.noConfusion hd1
  · unfold GH.get_old_branches
    rw [List.count_cons, count_getCommit_flatMap, hone]
    simp

/-- Spot-check of `commit_fetch_failure_skips_branch` on a two-branch
listing whose first branch has a failing commit-info endpoint. -/
theorem commit_fetch_failure_skips_branch_witness :
    GH.get_old_branches (fun s => if s = "u2" then some 0 else none) 100
        ([] ++ ⟨"b1", some "u1"⟩ :: [Branch.mk "b2" (some "u2")]) =
        Request.getBranches ::
          (List.flatMap []
              (GH.branchRequests (fun s => if s = "u2" then some 0 else none)
                100) ++
            Request.getCommit "u1" ::
              List.flatMap [Branch.mk "b2" (some "u2")]
                (GH.branchRequests (fun s => if s = "u2" then some 0 else none)
                  100))
      ∧ Request.deleteBranch "b1" ∉
          GH.get_old_branches (fun s => if s = "u2" then some 0 else none) 100
            ([] ++ ⟨"b1", some "u1"⟩ :: [Branch.mk "b2" (some "u2")])
      ∧ (GH.get_old_branches (fun s => if s = "u2" then some 0 else none) 100
            ([] ++ ⟨"b1", some "u1"⟩ :: [Branch.mk "b2" (some "u2")])).count
          (Request.getCommit "u1") = 1 :=
  commit_fetch_failure_skips_branch (fun s => if s = "u2" then some 0 else none)
    100 [] [Branch.mk "b2" (some "u2")] ⟨"b1", some "u1"⟩ "u1" rfl (by decide)
    (by decide) (by decide)

/-! ### Tag handling (C2): `main` never touches tags -/

theorem mem_mainRequests_shape (w : RCWorld) (r : Request)
    (hr : r ∈ RC.mainRequests w) :
    r = Request.getBranches ∨ (∃ u, r = Request.getCommit u) ∨
      (∃ n, r = Request.deleteBranch n) ∨
      r = Request.getContents ".gitignore" ∨
      r = Request.putContents ".gitignore" RC.gitignoreContent := by
  unfold RC.mainRequests at hr
  rcases List.mem_append.mp hr with h | h
  · unfold RC.get_old_branches at h
    rcases List.mem_cons.mp h with h | h
    · exact Or.inl h
    · rcases hw : w.branches with _ | bs
      · rw [hw] at h
        simp at h
      · rw [hw] at h
        rcases List.mem_flatMap.mp h with ⟨b, _, hb⟩
        rcases List.mem_cons.mp hb with h1 | h1
        · exact Or.inr (Or.inl ⟨_, h1⟩)
        · rcases hc : w.commitDate b.commitUrl with _ | d
          · rw [hc] at h1
            have h2 : r ∈ ([] : List Request) := h1
            simp at h2
          · rw [hc] at h1
            have h2 : r ∈
                (if d < w.cutoff then [Request.deleteBranch b.name] else []) :=
              h1
            by_cases hlt : d < w.cutoff
            · rw [if_pos hlt] at h2
              simp at h2
              exact Or.inr (Or.inr (Or.inl ⟨_, h2⟩))
            · rw [if_neg hlt] at h2
              simp at h2
  · by_cases hok : w.llfOk
    · rw [if_pos hok] at h
      unfold RC.update_gitignore_requests at h
      rcases List.mem_cons.mp h with h | h
      · exact Or.inr (Or.inr (Or.inr (Or.inl h)))
      · simp at h
        exact Or.inr (Or.inr (Or.inr (Or.inr h)))
    · rw [if_neg hok] at h
      simp at h

/-- C2 (amended): a run of the program never issues any tag request: no tag
is fetched and no tag delete request is issued, whatever the repository
state.  (`get_tags` and `delete_tag` exist in `utils/github_api.py` but
`repo_cleaner.main` never calls them — and `delete_tag`, when called
directly, deletes unconditionally rather than by commit date.) -/
theorem main_issues_no_tag_requests (w : RCWorld) (t : String) :
    Request.deleteTag t ∉ RC.mainRequests w ∧
      Request.getTags ∉ RC.mainRequests w := by
  constructor
  · intro hmem
    rcases mem_mainRequests_shape w _ hmem with h | ⟨u, h⟩ | ⟨n, h⟩ | h | h <;>
      exact Request.noConfusion h
  · intro hmem
    rcases mem_mainRequests_shape w _ hmem with h | ⟨u, h⟩ | ⟨n, h⟩ | h | h <;>
      exact Request.noConfusion h

/-- C2 (counterexample): in a run over a repository holding tag `v0.1`
whose commit date 0 strictly precedes the cutoff 100, the program issues no
delete request for that tag, refuting "a delete request is issued for a tag
iff the tag's commit date precedes the cutoff". -/
theorem stale_tag_not_deleted_in_run :
    (RCWorld.mk (some []) (fun _ => none) 100 [("v0.1", 0)] true).tags =
        [("v0.1", (0 : Int))] ∧
      (0 : Int) < 100 ∧
      Request.deleteTag "v0.1" ∉
        RC.mainRequests
          (RCWorld.mk (some []) (fun _ => none) 100 [("v0.1", 0)] true) := by
  refine ⟨rfl, by decide, ?_⟩
  intro hmem
  rcases mem_mainRequests_shape _ _ hmem with h | ⟨u, h⟩ | ⟨n, h⟩ | h | h <;>
    exact Request.noConfusion h

/-! ### Large-file scan -/

/-- C6: on the output line `git rev-list --objects --all` emits for every
commit object — a bare hash with no filename — `repo_cleaner.list_large_files`
raises an uncaught `ValueError` instead of skipping the line, while the
guarded `utils/file_utils.list_large_files` (`if len(parts) < 2: continue`)
skips it and returns normally. -/
theorem rc_large_files_uncaught_value_error :
    RC.list_large_files (fun _ => 0) 5
        ["d670460b4b4aece5915caf5c68d12f560a9fe3e4".data] =
      Except.error "ValueError"
    ∧ FU.list_large_files (fun _ => 0) 5
        ["d670460b4b4aece5915caf5c68d12f560a9fe3e4".data] = [] := by
  exact ⟨rfl, rfl⟩

theorem fu_large_files_sound (sizeOf : Chars → Nat) (threshold : Nat)
    (lines : List Chars) :
    ∀ e ∈ FU.list_large_files sizeOf threshold lines,
      threshold * 1048576 < e.2 := by
  induction lines with
  | nil =>
    intro e he
    simp [FU.list_large_files] at he
  | cons line rest ih =>
    intro e he
    unfold FU.list_large_files at he
    rcases hs : pySplit1 line with _ | ⟨h1, tl⟩
    · rw [hs] at he
      exact ih e he
    · rcases tl with _ | ⟨fn1, tl2⟩
      · rw [hs] at he
        exact ih e he
      · rcases tl2 with _ | ⟨x, xs⟩
        · simp only [hs] at he
          by_cases hlt : threshold * 1048576 < sizeOf h1
          · rw [if_pos hlt] at he
            rcases List.mem_cons.mp he with rfl | he2
            · exact hlt
            · exact ih e he2
          · rw [if_neg hlt] at he
            exact ih e he
        · rw [hs] at he
          exact ih e he

theorem fu_large_files_complete (sizeOf : Chars → Nat) (threshold : Nat)
    (lines : List Chars) :
    ∀ line ∈ lines, ∀ h fn, pySplit1 line = [h, fn] →
      threshold * 1048576 < sizeOf h →
      (fn, sizeOf h) ∈ FU.list_large_files sizeOf threshold lines := by
  induction lines with
  | nil =>
    intro line hl
    simp at hl
  | cons l0 rest ih =>
    intro line hl h fn hs hlt
    rcases List.mem_cons.mp hl with rfl | hl2
    · unfold FU.list_large_files
      simp only [hs]
      rw [if_pos hlt]
      exact List.mem_cons_self _ _
    · have hmem := ih line hl2 h fn hs hlt
      unfold FU.list_large_files
      rcases hs0 : pySplit1 l0 with _ | ⟨h1, tl⟩
      · exact hmem
      · rcases tl with _ | ⟨fn1, tl2⟩
        · exact hmem
        · rcases tl2 with _ | ⟨x, xs⟩
          · simp only [hs0]
            split
            · exact List.mem_cons_of_mem _ hmem
            · exact hmem
          · exact hmem

/-- C7: `utils/file_utils.list_large_files` applies the size threshold
exactly: every listed entry records a byte size strictly above
`threshold * 2^20` (its size in MB strictly exceeds the threshold — the two
conditions agree over exact arithmetic), and every enumerated object line
carrying a filename whose size exceeds the threshold is listed;
`repo_cleaner.main` calls the scan with the default threshold 5. -/
theorem list_large_files_threshold (sizeOf : Chars → Nat) (threshold : Nat)
    (lines : List Chars) :
    (∀ e ∈ FU.list_large_files sizeOf threshold lines,
        threshold * 1048576 < e.2)
    ∧ ∀ line ∈ lines, ∀ h fn, pySplit1 line = [h, fn] →
        threshold * 1048576 < sizeOf h →
        (fn, sizeOf h) ∈ FU.list_large_files sizeOf threshold lines :=
  ⟨fu_large_files_sound sizeOf threshold lines,
    fu_large_files_complete sizeOf threshold lines⟩

/-- Spot-check of `list_large_files_threshold` at the default threshold 5:
a 6 MiB + 1 byte object on line `abc def` is listed. -/
theorem list_large_files_threshold_witness :
    ("def".data, 6291457) ∈
      FU.list_large_files (fun _ => 6291457) 5 ["abc def".data] :=
  (list_large_files_threshold (fun _ => 6291457) 5 ["abc def".data]).2
    "abc def".data (by simp) "abc".data "def".data (by decide) (by decide)

/-! ### Duplicate-file scan (`utils/file_utils.remove_duplicate_files`) -/

theorem findHash_cons [DecidableEq β] (h k : Option β) (p : String)
    (l : List (Option β × String)) :
    findHash h ((k, p) :: l) = if k = h then some p else findHash h l := rfl

theorem dupStep_fileHashes [DecidableEq β] (hashFn : α → β) (del : Bool)
    (st : ScanState β) (f : FSFile α) :
    (dupStep hashFn del st f).fileHashes =
      if (findHash (hash_file hashFn f) st.fileHashes).isSome then
        st.fileHashes
      else (hash_file hashFn f, f.path) :: st.fileHashes := by
  unfold dupStep
  cases hf : findHash (hash_file hashFn f) st.fileHashes <;> simp [hf]

theorem dupStep_duplicates [DecidableEq β] (hashFn : α → β) (del : Bool)
    (st : ScanState β) (f : FSFile α) :
    (dupStep hashFn del st f).duplicates =
      if (findHash (hash_file hashFn f) st.fileHashes).isSome then
        st.duplicates ++ [f.path]
      else st.duplicates := by
  unfold dupStep
  cases hf : findHash (hash_file hashFn f) st.fileHashes <;> simp [hf]

theorem dupStep_deleted [DecidableEq β] (hashFn : α → β) (del : Bool)
    (st : ScanState β) (f : FSFile α) :
    (dupStep hashFn del st f).deleted =
      if (findHash (hash_file hashFn f) st.fileHashes).isSome then
        (if del then st.deleted ++ [f.path] else st.deleted)
      else st.deleted := by
  unfold dupStep
  cases hf : findHash (hash_file hashFn f) st.fileHashes <;> simp [hf]

theorem dupStep_lookup_isSome [DecidableEq β] (hashFn : α → β) (del : Bool)
    (st : ScanState β) (f : FSFile α) (h : Option β)
    (hh : (findHash h st.fileHashes).isSome) :
    (findHash h (dupStep hashFn del st f).fileHashes).isSome := by
  rw [dupStep_fileHashes]
  split
  · exact hh
  · rw [findHash_cons]
    split
    · simp
    · exact hh

theorem foldl_dupStep_lookup_isSome [DecidableEq β] (hashFn : α → β)
    (del : Bool) (l : List (FSFile α)) (st : ScanState β) (h : Option β)
    (hh : (findHash h st.fileHashes).isSome) :
    (findHash h (l.foldl (dupStep hashFn del) st).fileHashes).isSome := by
  induction l generalizing st with
  | nil => exact hh
  | cons f l ih => exact ih _ (dupStep_lookup_isSome hashFn del st f h hh)

theorem dupStep_self_lookup [DecidableEq β] (hashFn : α → β) (del : Bool)
    (st : ScanState β) (f : FSFile α) :
    (findHash (hash_file hashFn f)
        (dupStep hashFn del st f).fileHashes).isSome := by
  rw [dupStep_fileHashes]
  split
  · next hsome => exact hsome
  · rw [findHash_cons, if_pos rfl]
    simp

theorem dupStep_lookup_keep [DecidableEq β] (hashFn : α → β) (del : Bool)
    (st : ScanState β) (f : FSFile α) (h : Option β) (p : String)
    (hp : findHash h st.fileHashes = some p) :
    findHash h (dupStep hashFn del st f).fileHashes = some p := by
  rw [dupStep_fileHashes]
  split
  · exact hp
  · next hmiss =>
    rw [findHash_cons]
    split
    · next hk =>
      rw [hk, hp] at hmiss
      simp at hmiss
    · exact hp

theorem foldl_dupStep_lookup_keep [DecidableEq β] (hashFn : α → β)
    (del : Bool) (l : List (FSFile α)) (st : ScanState β) (h : Option β)
    (p : String) (hp : findHash h st.fileHashes = some p) :
    findHash h (l.foldl (dupStep hashFn del) st).fileHashes = some p := by
  induction l generalizing st with
  | nil => exact hp
  | cons f l ih => exact ih _ (dupStep_lookup_keep hashFn del st f h p hp)

theorem foldl_dupStep_duplicates_mono [DecidableEq β] (hashFn : α → β)
    (del : Bool) (l : List (FSFile α)) (st : ScanState β) (p : String)
    (hp : p ∈ st.duplicates) :
    p ∈ (l.foldl (dupStep hashFn del) st).duplicates := by
  induction l generalizing st with
  | nil => exact hp
  | cons f l ih =>
    refine ih _ ?_
    rw [dupStep_duplicates]
    split
    · exact List.mem_append_left _ hp
    · exact hp

theorem foldl_dupStep_deleted_mono [DecidableEq β] (hashFn : α → β)
    (del : Bool) (l : List (FSFile α)) (st : ScanState β) (p : String)
    (hp : p ∈ st.deleted) :
    p ∈ (l.foldl (dupStep hashFn del) st).deleted := by
  induction l generalizing st with
  | nil => exact hp
  | cons f l ih =>
    refine ih _ ?_
    rw [dupStep_deleted]
    split
    · split
      · exact List.mem_append_left _ hp
      · exact hp
    · exact hp

theorem dupStep_dup_hit [DecidableEq β] (hashFn : α → β) (del : Bool)
    (st : ScanState β) (f : FSFile α)
    (hhit : (findHash (hash_file hashFn f) st.fileHashes).isSome) :
    f.path ∈ (dupStep hashFn del st f).duplicates ∧
      (del = true → f.path ∈ (dupStep hashFn del st f).deleted) := by
  constructor
  · rw [dupStep_duplicates, if_pos hhit]
    exact List.mem_append_right _ (List.mem_singleton.mpr rfl)
  · intro hdel
    rw [dupStep_deleted, if_pos hhit, if_pos hdel]
    exact List.mem_append_right _ (List.mem_singleton.mpr rfl)

theorem foldl_dupStep_lookup_new [DecidableEq β] (hashFn : α → β)
    (del : Bool) (l : List (FSFile α)) (st : ScanState β) (h : Option β)
    (hs : (findHash h (l.foldl (dupStep hashFn del) st).fileHashes).isSome) :
    (findHash h st.fileHashes).isSome ∨
      ∃ f ∈ l, hash_file hashFn f = h := by
  induction l generalizing st with
  | nil => exact Or.inl hs
  | cons f l ih =>
    rcases ih _ hs with hst | ⟨g, hg, hgh⟩
    · rw [dupStep_fileHashes] at hst
      split at hst
      · exact Or.inl hst
      · rw [findHash_cons] at hst
        by_cases hk : hash_file hashFn f = h
        · exact Or.inr ⟨f, List.mem_cons_self f l, hk⟩
        · rw [if_neg hk] at hst
          exact Or.inl hst
    · exact Or.inr ⟨g, List.mem_cons_of_mem f hg, hgh⟩

theorem foldl_dupStep_duplicates_new [DecidableEq β] (hashFn : α → β)
    (del : Bool) (l : List (FSFile α)) (st : ScanState β) (p : String)
    (hp : p ∈ (l.foldl (dupStep hashFn del) st).duplicates) :
    p ∈ st.duplicates ∨ ∃ f ∈ l, f.path = p := by
  induction l generalizing st with
  | nil => exact Or.inl hp
  | cons f l ih =>
    rcases ih _ hp with hst | ⟨g, hg, hgp⟩
    · rw [dupStep_duplicates] at hst
      split at hst
      · rcases List.mem_append.mp hst with h1 | h1
        · exact Or.inl h1
        · exact Or.inr ⟨f, List.mem_cons_self f l, (List.mem_singleton.mp h1).symm⟩
      · exact Or.inl hst
    · exact Or.inr ⟨g, List.mem_cons_of_mem f hg, hgp⟩

theorem foldl_dupStep_deleted_new [DecidableEq β] (hashFn : α → β)
    (del : Bool) (l : List (FSFile α)) (st : ScanState β) (p : String)
    (hp : p ∈ (l.foldl (dupStep hashFn del) st).deleted) :
    p ∈ st.deleted ∨ ∃ f ∈ l, f.path = p := by
  induction l generalizing st with
  | nil => exact Or.inl hp
  | cons f l ih =>
    rcases ih _ hp with hst | ⟨g, hg, hgp⟩
    · rw [dupStep_deleted] at hst
      split at hst
      · split at hst
        · rcases List.mem_append.mp hst with h1 | h1
          · exact Or.inl h1
          · exact Or.inr ⟨f, List.mem_cons_self f l,
              (List.mem_singleton.mp h1).symm⟩
        · exact Or.inl hst
      · exact Or.inl hst
    · exact Or.inr ⟨g, List.mem_cons_of_mem f hg, hgp⟩

/-- C3: the claimed skipping of unreadable files does not happen.  With two
unreadable files, `hash_file` returns `None` for both (its internal
`except IOError` catches the error), so the scan treats `None` as an
ordinary digest: the first unreadable file becomes the canonical copy for
the key `None`, the second is reported as its duplicate and deleted, and
the `except IOError` skip branch of the loop (`error_files`) never fires. -/
theorem unreadable_files_not_skipped :
    (remove_duplicate_files (fun n : Nat => n) true
        [⟨"a.txt", none⟩, ⟨"b.txt", none⟩]).duplicates = ["b.txt"]
    ∧ (remove_duplicate_files (fun n : Nat => n) true
        [⟨"a.txt", none⟩, ⟨"b.txt", none⟩]).deleted = ["b.txt"]
    ∧ findHash none (remove_duplicate_files (fun n : Nat => n) true
        [⟨"a.txt", none⟩, ⟨"b.txt", none⟩]).fileHashes = some "a.txt"
    ∧ (remove_duplicate_files (fun n : Nat => n) true
        [⟨"a.txt", none⟩, ⟨"b.txt", none⟩]).errorFiles = [] :=
  ⟨rfl, rfl, rfl, rfl⟩

/-- C4: for two readable files with equal digests, the later-visited file is
reported in the duplicates list and, when `delete_duplicates` is set, it is
deleted. -/
theorem later_duplicate_reported [DecidableEq β] (hashFn : α → β)
    (del : Bool) (pre mid post : List (FSFile α)) (fi fj : FSFile α)
    (ci cj : α) (hci : fi.content = some ci) (hcj : fj.content = some cj)
    (hh : hashFn ci = hashFn cj) :
    fj.path ∈ (remove_duplicate_files hashFn del
        (pre ++ fi :: (mid ++ fj :: post))).duplicates
    ∧ (del = true → fj.path ∈ (remove_duplicate_files hashFn del
        (pre ++ fi :: (mid ++ fj :: post))).deleted) := by
  unfold remove_duplicate_files
  rw [List.foldl_append, List.foldl_cons, List.foldl_append, List.foldl_cons]
  have heq : hash_file hashFn fj = hash_file hashFn fi := by
    unfold hash_file
    rw [hci, hcj]
    simp [hh]
  have h1 := dupStep_self_lookup hashFn del
    (pre.foldl (dupStep hashFn del) ⟨[], [], [], []⟩) fi
  have h2 := foldl_dupStep_lookup_isSome hashFn del mid _ _ h1
  rw [← heq] at h2
  have h3 := dupStep_dup_hit hashFn del
    (mid.foldl (dupStep hashFn del)
      (dupStep hashFn del (pre.foldl (dupStep hashFn del) ⟨[], [], [], []⟩) fi))
    fj h2
  exact ⟨foldl_dupStep_duplicates_mono hashFn del post _ _ h3.1,
    fun hdel => foldl_dupStep_deleted_mono hashFn del post _ _ (h3.2 hdel)⟩

/-- Spot-check of `later_duplicate_reported`: two readable files with equal
contents; the second is reported and deleted. -/
theorem later_duplicate_reported_witness :
    "b" ∈ (remove_duplicate_files (fun n : Nat => n) true
        ([] ++ ⟨"a", some 0⟩ :: ([] ++ ⟨"b", some 0⟩ :: []))).duplicates
    ∧ (true = true → "b" ∈ (remove_duplicate_files (fun n : Nat => n) true
        ([] ++ ⟨"a", some 0⟩ :: ([] ++ ⟨"b", some 0⟩ :: []))).deleted) :=
  later_duplicate_reported (fun n : Nat => n) true [] [] []
    ⟨"a", some 0⟩ ⟨"b", some 0⟩ 0 0 rfl rfl rfl

/-- C9: the first file visited with a given digest is the canonical copy:
it is the value recorded for that digest in the hash map of the final
state, and it is neither reported as a duplicate nor deleted, for either
value of the `delete_duplicates` flag. -/
theorem first_file_with_hash_kept [DecidableEq β] (hashFn : α → β)
    (del : Bool) (pre post : List (FSFile α)) (fi : FSFile α)
    (hfirst : ∀ f ∈ pre, hash_file hashFn f ≠ hash_file hashFn fi)
    (hpath : ∀ f ∈ pre ++ post, f.path ≠ fi.path) :
    findHash (hash_file hashFn fi)
        (remove_duplicate_files hashFn del (pre ++ fi :: post)).fileHashes =
      some fi.path
    ∧ fi.path ∉
        (remove_duplicate_files hashFn del (pre ++ fi :: post)).duplicates
    ∧ fi.path ∉
        (remove_duplicate_files hashFn del (pre ++ fi :: post)).deleted := by
  unfold remove_duplicate_files
  rw [List.foldl_append, List.foldl_cons]
  have hmiss : findHash (hash_file hashFn fi)
      (pre.foldl (dupStep hashFn del) ⟨[], [], [], []⟩).fileHashes = none := by
    rcases hcase : findHash (hash_file hashFn fi)
        (pre.foldl (dupStep hashFn del) ⟨[], [], [], []⟩).fileHashes with _ | p
    · rfl
    · exfalso
      have hsome : (findHash (hash_file hashFn fi)
          (pre.foldl (dupStep hashFn del) ⟨[], [], [], []⟩).fileHashes).isSome := by
        rw [hcase]
        simp
      rcases foldl_dupStep_lookup_new hashFn del pre _ _ hsome with h0 | ⟨g, hg, hgh⟩
      · simp [findHash] at h0
      · exact hfirst g hg hgh
  have hfh : (dupStep hashFn del
      (pre.foldl (dupStep hashFn del) ⟨[], [], [], []⟩) fi).fileHashes =
      (hash_file hashFn fi, fi.path) ::
        (pre.foldl (dupStep hashFn del) ⟨[], [], [], []⟩).fileHashes := by
    rw [dupStep_fileHashes, if_neg (by rw [hmiss]; simp)]
  have hdup : (dupStep hashFn del
      (pre.foldl (dupStep hashFn del) ⟨[], [], [], []⟩) fi).duplicates =
      (pre.foldl (dupStep hashFn del) ⟨[], [], [], []⟩).duplicates := by
    rw [dupStep_duplicates, if_neg (by rw [hmiss]; simp)]
  have hdel2 : (dupStep hashFn del
      (pre.foldl (dupStep hashFn del) ⟨[], [], [], []⟩) fi).deleted =
      (pre.foldl (dupStep hashFn del) ⟨[], [], [], []⟩).deleted := by
    rw [dupStep_deleted, if_neg (by rw [hmiss]; simp)]
  refine ⟨?_, ?_, ?_⟩
  · refine foldl_dupStep_lookup_keep hashFn del post _ _ _ ?_
    rw [hfh, findHash_cons, if_pos rfl]
  · intro hmem
    rcases foldl_dupStep_duplicates_new hashFn del post _ _ hmem with h1 | ⟨g, hg, hgp⟩
    · rw [hdup] at h1
      rcases foldl_dupStep_duplicates_new hashFn del pre _ _ h1 with h2 | ⟨g, hg, hgp⟩
      · simp at h2
      · exact hpath g (List.mem_append_left _ hg) hgp
    · exact hpath g (List.mem_append_right _ hg) hgp
  · intro hmem
    rcases foldl_dupStep_deleted_new hashFn del post _ _ hmem with h1 | ⟨g, hg, hgp⟩
    · rw [hdel2] at h1
      rcases foldl_dupStep_deleted_new hashFn del pre _ _ h1 with h2 | ⟨g, hg, hgp⟩
      · simp at h2
      · exact hpath g (List.mem_append_left _ hg) hgp
    · exact hpath g (List.mem_append_right _ hg) hgp

/-- Spot-check of `first_file_with_hash_kept`: the first file with digest 2
is kept although a later file shares the digest. -/
theorem first_file_with_hash_kept_witness :
    findHash (hash_file (fun n : Nat => n) ⟨"a", some 2⟩)
        (remove_duplicate_files (fun n : Nat => n) true
          ([⟨"x", some 1⟩] ++ ⟨"a", some 2⟩ :: [⟨"b", some 2⟩])).fileHashes =
      some "a"
    ∧ "a" ∉ (remove_duplicate_files (fun n : Nat => n) true
        ([⟨"x", some 1⟩] ++ ⟨"a", some 2⟩ :: [⟨"b", some 2⟩])).duplicates
    ∧ "a" ∉ (remove_duplicate_files (fun n : Nat => n) true
        ([⟨"x", some 1⟩] ++ ⟨"a", some 2⟩ :: [⟨"b", some 2⟩])).deleted :=
  first_file_with_hash_kept (fun n : Nat => n) true [⟨"x", some 1⟩]
    [⟨"b", some 2⟩] ⟨"a", some 2⟩ (by decide) (by decide)

/-! ### Ignore-file maintenance -/

theorem splitNL_ne_nil (s : Chars) : splitNL s ≠ [] := by
  induction s with
  | nil => simp [splitNL]
  | cons c cs ih =>
    unfold splitNL
    by_cases hc : c = '\n'
    · simp [hc]
    · rw [if_neg hc]
      rcases hs : splitNL cs with _ | ⟨l, ls⟩
      · exact absurd hs ih
      · simp

theorem splitNL_append (a b : Chars) :
    splitNL (a ++ '\n' :: b) = splitNL a ++ splitNL b := by
  induction a with
  | nil => simp [splitNL]
  | cons c cs ih =>
    rw [List.cons_append]
    by_cases hc : c = '\n'
    · simp only [splitNL, if_pos hc, ih]
      simp
    · simp only [splitNL, if_neg hc, ih]
      rcases hs : splitNL cs with _ | ⟨l, ls⟩
      · exact absurd hs (splitNL_ne_nil cs)
      · simp

theorem splitNL_no_newline (p : Chars) (hp : ('\n' : Char) ∉ p) :
    splitNL p = [p] := by
  induction p with
  | nil => rfl
  | cons c cs ih =>
    have hc : ¬ c = '\n' := fun h => hp (h ▸ List.mem_cons_self c cs)
    have hcs : ('\n' : Char) ∉ cs := fun h => hp (List.mem_cons_of_mem c h)
    simp only [splitNL, if_neg hc, ih hcs]

theorem existingPatterns_append (a b : Chars) :
    existingPatterns (a ++ '\n' :: b) =
      existingPatterns a ++ existingPatterns b := by
  unfold existingPatterns
  rw [splitNL_append, List.map_append, List.filter_append]

theorem existingPatterns_single (p : Chars) (hnl : ('\n' : Char) ∉ p)
    (hst : pyStrip p = p) (hne : p ≠ []) : existingPatterns p = [p] := by
  unfold existingPatterns
  rw [splitNL_no_newline p hnl]
  simp [hst, hne]

theorem commonPatterns_wf :
    ∀ p ∈ commonPatterns, ('\n' : Char) ∉ p ∧ pyStrip p = p ∧ p ≠ [] := by
  decide

theorem pattern_mem_flatten (ps : List Chars) :
    (∀ p ∈ ps, ('\n' : Char) ∉ p ∧ pyStrip p = p ∧ p ≠ []) →
      ∀ q ∈ ps,
        q ∈ existingPatterns ((ps.map fun p => p ++ ['\n']).flatten) := by
  induction ps with
  | nil =>
    intro _ q hq
    simp at hq
  | cons p ps ih =>
    intro hwf q hq
    have hflat : ((p :: ps).map fun r => r ++ ['\n']).flatten =
        p ++ '\n' :: ((ps.map fun r => r ++ ['\n']).flatten) := by
      simp
    rw [hflat, existingPatterns_append]
    rcases List.mem_cons.mp hq with rfl | hq2
    · refine List.mem_append_left _ ?_
      have hw := hwf q (List.mem_cons_self q ps)
      rw [existingPatterns_single q hw.1 hw.2.1 hw.2.2]
      simp
    · exact List.mem_append_right _
        (ih (fun r hr => hwf r (List.mem_cons_of_mem p hr)) q hq2)

theorem optimize_gitignore_of_nil (c : Chars) (h : newPatterns c = []) :
    optimize_gitignore c = c := by
  simp [optimize_gitignore, h]

theorem optimize_gitignore_of_ne (c : Chars) (h : ¬ newPatterns c = []) :
    optimize_gitignore c =
      c ++ optHeader ++ ((newPatterns c).map fun p => p ++ ['\n']).flatten := by
  simp [optimize_gitignore, h]

theorem existingPatterns_optimize (c : Chars) (h : ¬ newPatterns c = []) :
    existingPatterns (optimize_gitignore c) =
      existingPatterns c ++
        existingPatterns
          ("# Optimized entries added by optimize_gitignore".data) ++
        existingPatterns (((newPatterns c).map fun p => p ++ ['\n']).flatten) := by
  rw [optimize_gitignore_of_ne c h]
  have hsh : c ++ optHeader ++ ((newPatterns c).map fun p => p ++ ['\n']).flatten =
      c ++ '\n' ::
        ("# Optimized entries added by optimize_gitignore".data ++
          '\n' :: ((newPatterns c).map fun p => p ++ ['\n']).flatten) := by
    simp [optHeader, List.append_assoc]
  rw [hsh, existingPatterns_append, existingPatterns_append,
    List.append_assoc]

theorem commonPatterns_mem_optimize (c : Chars) (p : Chars)
    (hp : p ∈ commonPatterns) :
    p ∈ existingPatterns (optimize_gitignore c) := by
  by_cases h : newPatterns c = []
  · rw [optimize_gitignore_of_nil c h]
    have hf := List.filter_eq_nil_iff.mp h p hp
    simpa using hf
  · rw [existingPatterns_optimize c h]
    by_cases hpc : p ∈ existingPatterns c
    · exact List.mem_append_left _ (List.mem_append_left _ hpc)
    · refine List.mem_append_right _ ?_
      refine pattern_mem_flatten (newPatterns c) ?_ p ?_
      · intro r hr
        exact commonPatterns_wf r (List.mem_filter.mp hr).1
      · unfold newPatterns
        rw [List.mem_filter]
        exact ⟨hp, by simp [hpc]⟩

/-- C10: `optimize_gitignore` is idempotent: a second run finds every common
pattern already present among the file's stripped lines, computes an empty
`new_patterns` list, and leaves the file untouched. -/
theorem optimize_gitignore_idempotent (c : Chars) :
    optimize_gitignore (optimize_gitignore c) = optimize_gitignore c := by
  have h2 : newPatterns (optimize_gitignore c) = [] := by
    unfold newPatterns
    refine List.filter_eq_nil_iff.mpr ?_
    intro p hp
    have hmem := commonPatterns_mem_optimize c p hp
    simp [hmem]
  exact optimize_gitignore_of_nil _ h2

/-- C5 (amended): the local ignore-file operation `optimize_gitignore` only
appends — the prior content is an unchanged prefix of the new content and
every pattern already present remains present.  The remote
`update_gitignore` of `repo_cleaner.py` lacks this property: it overwrites
the file with fixed boilerplate (see `update_gitignore_discards_content`). -/
theorem optimize_gitignore_only_appends (c : Chars) :
    c <+: optimize_gitignore c ∧
      ∀ p ∈ existingPatterns c,
        p ∈ existingPatterns (optimize_gitignore c) := by
  by_cases h : newPatterns c = []
  · rw [optimize_gitignore_of_nil c h]
    exact ⟨List.prefix_rfl, fun p hp => hp⟩
  · constructor
    · rw [optimize_gitignore_of_ne c h, List.append_assoc]
      exact List.prefix_append c _
    · intro p hp
      rw [existingPatterns_optimize c h]
      exact List.mem_append_left _ (List.mem_append_left _ hp)

/-- Spot-check of `optimize_gitignore_only_appends` on a file holding the
custom pattern `keep-me`. -/
theorem optimize_gitignore_only_appends_witness :
    "keep-me\n".data <+: optimize_gitignore "keep-me\n".data ∧
      "keep-me".data ∈ existingPatterns (optimize_gitignore "keep-me\n".data) :=
  ⟨(optimize_gitignore_only_appends "keep-me\n".data).1,
    (optimize_gitignore_only_appends "keep-me\n".data).2 "keep-me".data
      (by decide)⟩

/-- C5 (counterexample): the remote ignore-file operation
`repo_cleaner.update_gitignore` does not append: a prior `.gitignore`
holding the pattern `custom-secret` is replaced by the fixed boilerplate,
so the prior content is not a prefix of the new content and the previously
present pattern is gone. -/
theorem update_gitignore_discards_content :
    ¬ ("custom-secret\n".data <+:
        RC.update_gitignore (some "custom-secret\n".data))
    ∧ "custom-secret".data ∈ existingPatterns "custom-secret\n".data
    ∧ "custom-secret".data ∉
        existingPatterns (RC.update_gitignore (some "custom-secret\n".data)) := by
  exact ⟨by decide, by decide, by decide⟩
